import Mathlib

/-!
Shallow embedding of the chronver crate (chronologic version parsing) in Lean 4.

The crate lives in src/lib.rs and src/error.rs. It defines the value types
`Version`, `Date`, `Changeset` and `Kind`, a parser (the chain of
TryFrom implementations for string slices), a formatter (the Display
implementations) and an increment operation. Strings are modelled as lists of
characters; Rust byte-level operations on the input are faithful on ASCII
inputs, and the parser rejects non-ASCII input up front. Rust integer parsing
(FromStr for u8, u32 and i32) is modelled with its sign handling: an optional
leading plus sign for unsigned types, an optional leading plus or minus sign
for signed types, then a nonempty run of ASCII digits, with range checks. The
external clock of Version::default and Version::increment is injected as an
explicit date argument.
-/

namespace Chronver

/-- Rust u8::is_ascii: the code point is below 128. -/
def isAsciiChar (c : Char) : Bool := c.toNat < 128

/-- Rust char::is_ascii_digit: the character is one of the digits 0 to 9. -/
def isDigitChar (c : Char) : Bool := 48 ≤ c.toNat && c.toNat ≤ 57

/-- Value of a run of decimal digit characters, most significant first.
Models the accumulation loop of Rust integer FromStr on a digit string. -/
def digitsToNat (l : List Char) : Nat :=
  l.foldl (fun a c => a * 10 + (c.toNat - 48)) 0

/-- The decimal digit character of a value below ten. -/
def digitChar (n : Nat) : Char :=
  match n with
  | 0 => '0'
  | 1 => '1'
  | 2 => '2'
  | 3 => '3'
  | 4 => '4'
  | 5 => '5'
  | 6 => '6'
  | 7 => '7'
  | 8 => '8'
  | _ => '9'

/-- Fuel-driven helper for decimal digit rendering, so that it reduces by
definitional unfolding. The fuel is an upper bound on the value plus one. -/
def natDigitsAux : Nat → Nat → List Char
  | 0, _ => []
  | f + 1, n =>
    if n < 10 then [digitChar n]
    else natDigitsAux f (n / 10) ++ [digitChar (n % 10)]

/-- Decimal digit rendering of a natural number, as produced by the Rust
Display implementations for unsigned integers. -/
def natDigits (n : Nat) : List Char := natDigitsAux (n + 1) n

/-- Digit phase of Rust integer FromStr after the optional sign: the rest of
the input must be a nonempty run of ASCII digits and the value must fit the
target type. -/
def parseUIntDigits (bound : Nat) (d : List Char) : Except Unit Nat :=
  if d ≠ [] ∧ d.all isDigitChar = true ∧ digitsToNat d ≤ bound then
    .ok (digitsToNat d)
  else .error ()

/-- Rust FromStr for an unsigned integer type with maximum value bound: an
optional leading plus sign, then digits; a leading minus sign is rejected. -/
def parseUInt (bound : Nat) (l : List Char) : Except Unit Nat :=
  match l with
  | [] => .error ()
  | c :: rest =>
    if c = '+' then parseUIntDigits bound rest
    else if c = '-' then .error ()
    else parseUIntDigits bound (c :: rest)

/-- Rust FromStr for i32: an optional leading plus or minus sign, then
digits, with the i32 range check. -/
def parseI32 (l : List Char) : Except Unit Int :=
  match l with
  | [] => .error ()
  | c :: rest =>
    if c = '+' then
      match parseUIntDigits 2147483647 rest with
      | .error _ => .error ()
      | .ok n => .ok (Int.ofNat n)
    else if c = '-' then
      match parseUIntDigits 2147483648 rest with
      | .error _ => .error ()
      | .ok n => .ok (-(Int.ofNat n))
    else
      match parseUIntDigits 2147483647 (c :: rest) with
      | .error _ => .error ()
      | .ok n => .ok (Int.ofNat n)

/-- The maximum value of a u32, which is also Changeset::MAX in the source. -/
def U32MAX : Nat := 4294967295

/-- Errors of Date parsing, from src/error.rs (ParseDateError). The wrapped
causes carry no further information relevant to the claims and are dropped. -/
inductive ParseDateError where
  | missingMonthSeparator
  | missingDaySeparator
  | invalidInt
  | invalidMonth
  | invalidDate
  deriving DecidableEq, Repr

/-- Errors of Changeset parsing, from src/error.rs (ParseChangesetError). -/
inductive ParseChangesetError where
  | invalidInt
  | zero
  deriving DecidableEq, Repr

/-- Errors of Kind parsing, from src/error.rs (ParseKindError). -/
inductive ParseKindError where
  | nonAscii
  deriving DecidableEq, Repr

/-- Errors of Version parsing, from src/error.rs (ParseError). -/
inductive ParseError where
  | nonAscii
  | tooShort
  | invalidDate (inner : ParseDateError)
  | invalidChangeset (inner : ParseChangesetError)
  | invalidKind (inner : ParseKindError)
  | trailingData
  deriving DecidableEq, Repr

/-- The date component of a version, modelling chronver::Date, a wrapper of
time::Date, by its calendar fields. -/
structure Date where
  year : Int
  month : Nat
  day : Nat
  deriving DecidableEq, Repr

/-- Leap year rule of the proleptic Gregorian calendar, as used by the time
crate: divisible by 4 and, if divisible by 100, also by 400. -/
def isLeapYear (y : Int) : Bool := y % 4 = 0 && (y % 100 ≠ 0 || y % 400 = 0)

/-- Number of days of a month in a year, as used by the time crate. Months
outside 1 to 12 never reach this function in the source. -/
def daysInMonth (y : Int) (m : Nat) : Nat :=
  match m with
  | 1 => 31
  | 2 => if isLeapYear y then 29 else 28
  | 3 => 31
  | 4 => 30
  | 5 => 31
  | 6 => 30
  | 7 => 31
  | 8 => 31
  | 9 => 30
  | 10 => 31
  | 11 => 30
  | 12 => 31
  | _ => 0

/-- time::Date::from_calendar_date with the default feature set: the year
must lie in -9999 to 9999 and the day must be valid for the month. The month
argument is already validated to 1 to 12 by the caller in the source. -/
def fromCalendarDate (y : Int) (m d : Nat) : Option Date :=
  if -9999 ≤ y ∧ y ≤ 9999 ∧ 1 ≤ d ∧ d ≤ daysInMonth y m then some ⟨y, m, d⟩
  else none

/-- Rust str::split_once: split at the first occurrence of the separator. -/
def splitOnce (sep : Char) : List Char → Option (List Char × List Char)
  | [] => none
  | c :: rest =>
    if c = sep then some ([], rest)
    else
      match splitOnce sep rest with
      | none => none
      | some (a, b) => some (c :: a, b)

/-- TryFrom of string slices for Date (src/lib.rs lines 276 to 300): split at
the first two dots, parse year as i32, month as u8 checked to 1 to 12, day as
u8, then build the calendar date. -/
def parseDate (l : List Char) : Except ParseDateError Date :=
  match splitOnce '.' l with
  | none => .error .missingMonthSeparator
  | some (ys, rem) =>
    match splitOnce '.' rem with
    | none => .error .missingDaySeparator
    | some (ms, ds) =>
      match parseI32 ys with
      | .error _ => .error .invalidInt
      | .ok y =>
        match parseUInt 255 ms with
        | .error _ => .error .invalidInt
        | .ok m =>
          if 1 ≤ m ∧ m ≤ 12 then
            match parseUInt 255 ds with
            | .error _ => .error .invalidInt
            | .ok d =>
              match fromCalendarDate y m d with
              | none => .error .invalidDate
              | some date => .ok date
          else .error .invalidMonth

/-- Left padding with a fill character to a minimum width, as done by the
Rust width format specifiers. -/
def leftPad (c : Char) (w : Nat) (l : List Char) : List Char :=
  List.replicate (w - l.length) c ++ l

/-- Rust formatting of an i32 with specifier 04: the sign, if negative, is
followed by the digits zero-padded so that the total width is at least 4. -/
def formatI32Pad4 (y : Int) : List Char :=
  if y < 0 then '-' :: leftPad '0' 3 (natDigits (-y).toNat)
  else leftPad '0' 4 (natDigits y.toNat)

/-- Rust formatting of a u8 with specifier 02. -/
def formatPad2 (n : Nat) : List Char := leftPad '0' 2 (natDigits n)

/-- Display for Date (src/lib.rs lines 256 to 266). -/
def Date.format (d : Date) : List Char :=
  formatI32Pad4 d.year ++ '.' :: (formatPad2 d.month ++ '.' :: formatPad2 d.day)

/-- A changeset is a NonZero u32 in the source; it is modelled by its raw
value. TryFrom of string slices for Changeset (src/lib.rs lines 379 to 387):
parse as u32, then reject zero. -/
def parseChangeset (l : List Char) : Except ParseChangesetError Nat :=
  match parseUInt U32MAX l with
  | .error _ => .error .invalidInt
  | .ok n => if n = 0 then .error .zero else .ok n

/-- NonZero u32 checked_add (src/lib.rs lines 363 to 368): the sum if it does
not overflow a u32, otherwise none. -/
def changesetCheckedAdd (cs v : Nat) : Option Nat :=
  if cs + v ≤ U32MAX then some (cs + v) else none

/-- The kind of release, modelling the chronver::Kind enum. -/
inductive Kind where
  | regular
  | breaking
  | feature (name : List Char)
  deriving DecidableEq, Repr

/-- TryFrom of string slices for Kind (src/lib.rs lines 441 to 454): empty
maps to regular, the exact string break to breaking, any other ASCII string
to a feature of that name, and non-ASCII input is rejected. -/
def parseKind (l : List Char) : Except ParseKindError Kind :=
  if l = [] then .ok .regular
  else if l = ['b', 'r', 'e', 'a', 'k'] then .ok .breaking
  else if l.all isAsciiChar = true then .ok (.feature l)
  else .error .nonAscii

/-- Display for Kind (src/lib.rs lines 456 to 464). -/
def Kind.format : Kind → List Char
  | .regular => []
  | .breaking => ['b', 'r', 'e', 'a', 'k']
  | .feature n => n

/-- A chronologic version, modelling the chronver::Version struct. -/
structure Version where
  date : Date
  changeset : Option Nat
  kind : Kind
  deriving DecidableEq, Repr

/-- The kind step of Version parsing (src/lib.rs lines 165 to 170): strip a
leading dash and parse the rest as a Kind, or require the remainder empty. -/
def parseKindStep (rem : List Char) : Except ParseError Kind :=
  match rem with
  | '-' :: rest =>
    match parseKind rest with
    | .error e => .error (.invalidKind e)
    | .ok k => .ok k
  | [] => .ok .regular
  | _ => .error .trailingData

/-- The changeset and kind steps of Version parsing applied to the remainder
after the ten date characters (src/lib.rs lines 157 to 170). A leading dot
starts a changeset: the maximal run of ASCII digits after the dot is the
changeset substring, and whatever follows is handed to the kind step. -/
def parseVersionTail (rem : List Char) : Except ParseError (Option Nat × Kind) :=
  match rem with
  | '.' :: rest =>
    match parseChangeset (rest.takeWhile isDigitChar) with
    | .error e => .error (.invalidChangeset e)
    | .ok n =>
      match parseKindStep (rest.dropWhile isDigitChar) with
      | .error e => .error e
      | .ok k => .ok (some n, k)
  | _ =>
    match parseKindStep rem with
    | .error e => .error e
    | .ok k => .ok (none, k)

/-- TryFrom of string slices for Version (src/lib.rs lines 148 to 178): check
ASCII, check the minimum length of ten, split off the ten date characters,
run the changeset and kind steps on the remainder, and parse the date
substring last, inside the final struct literal. -/
def parseVersion (l : List Char) : Except ParseError Version :=
  if l.all isAsciiChar = false then .error .nonAscii
  else if l.length < 10 then .error .tooShort
  else
    match parseVersionTail (l.drop 10) with
    | .error e => .error e
    | .ok (cs, k) =>
      match parseDate (l.take 10) with
      | .error e => .error (.invalidDate e)
      | .ok d => .ok ⟨d, cs, k⟩

/-- The changeset part of Display for Version: a dot and the digits when a
changeset is present, nothing otherwise. -/
def formatChangesetPart : Option Nat → List Char
  | none => []
  | some cs => '.' :: natDigits cs

/-- The kind part of Display for Version: a dash and the kind text when the
kind is not regular, nothing otherwise. -/
def formatKindPart (k : Kind) : List Char :=
  match k with
  | .regular => []
  | k => '-' :: k.format

/-- Display for Version (src/lib.rs lines 180 to 194). -/
def formatVersion (v : Version) : List Char :=
  v.date.format ++ (formatChangesetPart v.changeset ++ formatKindPart v.kind)

/-- Version::increment (src/lib.rs lines 103 to 112) with the clock injected:
Version::default builds the version of the current date with no changeset and
regular kind, and when the receiver has the same date the changeset becomes 1
or is bumped with saturation at Changeset::MAX. -/
def Version.increment (v : Version) (today : Date) : Version :=
  let new : Version := ⟨today, none, .regular⟩
  if v.date = new.date then
    { new with
      changeset := some (match v.changeset with
        | none => 1
        | some cs => (changesetCheckedAdd cs 1).getD U32MAX) }
  else new

/-- Comparison of natural numbers, written out so that all comparator
definitions below are self-contained. -/
def natCmp (a b : Nat) : Ordering :=
  if a < b then .lt else if b < a then .gt else .eq

/-- Comparison of integers. -/
def intCmp (a b : Int) : Ordering :=
  if a < b then .lt else if b < a then .gt else .eq

/-- Derived Ord for Date: time::Date orders chronologically, which is the
lexicographic order on year, month, day. -/
def dateCmp (a b : Date) : Ordering :=
  (intCmp a.year b.year).then ((natCmp a.month b.month).then (natCmp a.day b.day))

/-- Derived Ord for Option of Changeset: none sorts before some, and two
present changesets compare by value. -/
def changesetCmp : Option Nat → Option Nat → Ordering
  | none, none => .eq
  | none, some _ => .lt
  | some _, none => .gt
  | some a, some b => natCmp a b

/-- Comparison of characters by code point; on ASCII strings this is the Rust
byte order of str, and on any UTF-8 strings the byte order agrees with the
code point order. -/
def charCmp (a b : Char) : Ordering := natCmp a.toNat b.toNat

/-- Lexicographic comparison of strings, the Rust Ord for String. -/
def listCharCmp : List Char → List Char → Ordering
  | [], [] => .eq
  | [], _ :: _ => .lt
  | _ :: _, [] => .gt
  | a :: as, b :: bs => (charCmp a b).then (listCharCmp as bs)

/-- Derived Ord for Kind: discriminant order regular, breaking, feature, then
the name strings within feature. -/
def kindCmp : Kind → Kind → Ordering
  | .regular, .regular => .eq
  | .regular, .breaking => .lt
  | .regular, .feature _ => .lt
  | .breaking, .regular => .gt
  | .breaking, .breaking => .eq
  | .breaking, .feature _ => .lt
  | .feature _, .regular => .gt
  | .feature _, .breaking => .gt
  | .feature a, .feature b => listCharCmp a b

/-- Derived Ord for Version: fields in declaration order date, changeset,
kind. -/
def versionCmp (a b : Version) : Ordering :=
  (dateCmp a.date b.date).then
    ((changesetCmp a.changeset b.changeset).then (kindCmp a.kind b.kind))

/-- Specification-side definition following the wording of the spec: the rank
of a changeset is 0 when absent and its value when present. -/
def changesetRank : Option Nat → Nat
  | none => 0
  | some n => n

/-- Specification-side definition following the wording of the spec: compare
date first, then changeset rank, then kind. -/
def versionCmpSpec (a b : Version) : Ordering :=
  (dateCmp a.date b.date).then
    ((natCmp (changesetRank a.changeset) (changesetRank b.changeset)).then
      (kindCmp a.kind b.kind))

/-- Specification-side definition following the wording of the spec:
lexicographic strict order on strings. -/
def lexLt : List Char → List Char → Bool
  | [], [] => false
  | [], _ :: _ => true
  | _ :: _, [] => false
  | a :: as, b :: bs =>
    if a.toNat < b.toNat then true
    else if a = b then lexLt as bs
    else false

/-- Invariants of a parsed date: the ranges checked by month validation and
time::Date::from_calendar_date. -/
def DateInv (d : Date) : Prop :=
  -9999 ≤ d.year ∧ d.year ≤ 9999 ∧ 1 ≤ d.month ∧ d.month ≤ 12 ∧
    1 ≤ d.day ∧ d.day ≤ daysInMonth d.year d.month

/-- Invariants of a parsed changeset: a present changeset is a nonzero u32. -/
def ChangesetInv : Option Nat → Prop
  | none => True
  | some n => 1 ≤ n ∧ n ≤ U32MAX

/-- Invariants of a parsed kind: a feature name is ASCII, nonempty, and not
the reserved string break. -/
def KindInv : Kind → Prop
  | .regular => True
  | .breaking => True
  | .feature nm => nm.all isAsciiChar = true ∧ nm ≠ [] ∧ nm ≠ ['b', 'r', 'e', 'a', 'k']

/-- Invariants holding of every version produced by parsing. -/
def VersionInv (v : Version) : Prop :=
  DateInv v.date ∧ ChangesetInv v.changeset ∧ KindInv v.kind

/-- Strip a single leading plus sign; specification-side helper describing
the sign handling of Rust unsigned integer parsing. -/
def stripPlus : List Char → List Char
  | '+' :: rest => rest
  | l => l

theorem then_eq_eq_iff {a b : Ordering} : a.then b = .eq ↔ a = .eq ∧ b = .eq := by
  cases a <;> simp [Ordering.then]

theorem then_eq_lt_iff {a b : Ordering} : a.then b = .lt ↔ a = .lt ∨ (a = .eq ∧ b = .lt) := by
  cases a <;> simp [Ordering.then]

theorem natCmp_self (a : Nat) : natCmp a a = .eq := by simp [natCmp]

theorem natCmp_eq_iff {a b : Nat} : natCmp a b = .eq ↔ a = b := by
  unfold natCmp
  split
  · exact iff_of_false (by simp) (by omega)
  split
  · exact iff_of_false (by simp) (by omega)
  · exact iff_of_true rfl (by omega)

theorem natCmp_lt_iff {a b : Nat} : natCmp a b = .lt ↔ a < b := by
  unfold natCmp
  split
  · exact iff_of_true rfl (by omega)
  split
  · exact iff_of_false (by simp) (by omega)
  · exact iff_of_false (by simp) (by omega)

theorem natCmp_gt_iff {a b : Nat} : natCmp a b = .gt ↔ b < a := by
  unfold natCmp
  split
  · exact iff_of_false (by simp) (by omega)
  split
  · exact iff_of_true rfl (by omega)
  · exact iff_of_false (by simp) (by omega)

theorem intCmp_self (a : Int) : intCmp a a = .eq := by simp [intCmp]

theorem intCmp_eq_iff {a b : Int} : intCmp a b = .eq ↔ a = b := by
  unfold intCmp
  split
  · exact iff_of_false (by simp) (by omega)
  split
  · exact iff_of_false (by simp) (by omega)
  · exact iff_of_true rfl (by omega)

theorem char_toNat_inj {a b : Char} (h : a.toNat = b.toNat) : a = b := by
  have ha := Char.ofNat_toNat a
  have hb := Char.ofNat_toNat b
  rw [← ha, ← hb, h]

theorem charCmp_eq_iff {a b : Char} : charCmp a b = .eq ↔ a = b := by
  unfold charCmp
  rw [natCmp_eq_iff]
  exact ⟨char_toNat_inj, fun h => by rw [h]⟩

theorem listCharCmp_eq_iff : ∀ {a b : List Char}, listCharCmp a b = .eq ↔ a = b := by
  intro a
  induction a with
  | nil => intro b; cases b <;> simp [listCharCmp]
  | cons c cs ih =>
    intro b
    cases b with
    | nil => simp [listCharCmp]
    | cons d ds =>
      simp only [listCharCmp, then_eq_eq_iff, charCmp_eq_iff, ih, List.cons.injEq]

theorem listCharCmp_lt_iff : ∀ {a b : List Char}, listCharCmp a b = .lt ↔ lexLt a b = true := by
  intro a
  induction a with
  | nil => intro b; cases b <;> simp [listCharCmp, lexLt]
  | cons c cs ih =>
    intro b
    cases b with
    | nil => simp [listCharCmp, lexLt]
    | cons d ds =>
      simp only [listCharCmp, lexLt, then_eq_lt_iff]
      rcases Nat.lt_trichotomy c.toNat d.toNat with h | h | h
      · simp [charCmp, natCmp, h]
      · have hcd : c = d := char_toNat_inj h
        subst hcd
        simp [charCmp_eq_iff, charCmp, natCmp, ih]
      · have hne : c ≠ d := fun hcd => by subst hcd; omega
        have h1 : ¬c.toNat < d.toNat := by omega
        simp [charCmp, natCmp, h1, hne, if_neg, Nat.lt_asymm h]
        intro hlt
        omega

theorem kindCmp_eq_iff {a b : Kind} : kindCmp a b = .eq ↔ a = b := by
  cases a <;> cases b <;> simp [kindCmp, listCharCmp_eq_iff]

theorem kindCmp_self (a : Kind) : kindCmp a a = .eq := kindCmp_eq_iff.mpr rfl

theorem dateCmp_eq_iff {a b : Date} : dateCmp a b = .eq ↔ a = b := by
  unfold dateCmp
  rw [then_eq_eq_iff, then_eq_eq_iff, intCmp_eq_iff, natCmp_eq_iff, natCmp_eq_iff]
  constructor
  · rintro ⟨h1, h2, h3⟩
    cases a; cases b
    simp_all
  · intro h; subst h; exact ⟨rfl, rfl, rfl⟩

theorem dateCmp_self (a : Date) : dateCmp a a = .eq := dateCmp_eq_iff.mpr rfl

theorem changesetCmp_eq_iff {a b : Option Nat} : changesetCmp a b = .eq ↔ a = b := by
  cases a <;> cases b <;> simp [changesetCmp, natCmp_eq_iff]

theorem changesetCmp_self (a : Option Nat) : changesetCmp a a = .eq :=
  changesetCmp_eq_iff.mpr rfl

theorem versionCmp_eq_iff {a b : Version} : versionCmp a b = .eq ↔ a = b := by
  unfold versionCmp
  rw [then_eq_eq_iff, then_eq_eq_iff, dateCmp_eq_iff, changesetCmp_eq_iff, kindCmp_eq_iff]
  constructor
  · rintro ⟨h1, h2, h3⟩
    cases a; cases b
    simp_all
  · intro h; subst h; exact ⟨rfl, rfl, rfl⟩

/-- C2: the derived comparator of Version is the lexicographic order over
date, changeset rank and kind, where an absent changeset has rank 0 and a
present one has rank equal to its value; on equal dates an absent changeset
sorts strictly below any present one, and the order is consistent with
structural equality. -/
theorem version_cmp_spec (a b : Version)
    (ha : ChangesetInv a.changeset) (hb : ChangesetInv b.changeset) :
    versionCmp a b = versionCmpSpec a b ∧
    (versionCmp a b = .eq ↔ a = b) ∧
    (a.date = b.date → a.changeset = none → ∀ n, b.changeset = some n →
      versionCmp a b = .lt) := by
  refine ⟨?_, versionCmp_eq_iff, ?_⟩
  · unfold versionCmp versionCmpSpec
    have hcs : changesetCmp a.changeset b.changeset =
        natCmp (changesetRank a.changeset) (changesetRank b.changeset) := by
      rcases hx : a.changeset with _ | n <;> rcases hy : b.changeset with _ | m
      · rfl
      · rw [hy] at hb
        obtain ⟨h1, _⟩ := hb
        simp only [changesetCmp, changesetRank]
        exact (natCmp_lt_iff.mpr h1).symm
      · rw [hx] at ha
        obtain ⟨h1, _⟩ := ha
        simp only [changesetCmp, changesetRank]
        exact (natCmp_gt_iff.mpr h1).symm
      · rfl
    rw [hcs]
  · intro hd hx n hnb
    unfold versionCmp
    rw [hd, dateCmp_self, hx, hnb]
    rfl

/-- Witness for C2 at a concrete pair of versions with equal dates, an
absent changeset on the left and changeset 1 on the right. -/
theorem version_cmp_spec_witness :
    versionCmp ⟨⟨2024, 4, 3⟩, none, .regular⟩ ⟨⟨2024, 4, 3⟩, some 1, .regular⟩ =
      versionCmpSpec ⟨⟨2024, 4, 3⟩, none, .regular⟩ ⟨⟨2024, 4, 3⟩, some 1, .regular⟩ ∧
    (versionCmp ⟨⟨2024, 4, 3⟩, none, .regular⟩ ⟨⟨2024, 4, 3⟩, some 1, .regular⟩ = .eq ↔
      (⟨⟨2024, 4, 3⟩, none, .regular⟩ : Version) = ⟨⟨2024, 4, 3⟩, some 1, .regular⟩) ∧
    ((⟨2024, 4, 3⟩ : Date) = ⟨2024, 4, 3⟩ → (none : Option Nat) = none →
      ∀ n, (some 1 : Option Nat) = some n →
      versionCmp ⟨⟨2024, 4, 3⟩, none, .regular⟩ ⟨⟨2024, 4, 3⟩, some 1, .regular⟩ = .lt) :=
  version_cmp_spec ⟨⟨2024, 4, 3⟩, none, .regular⟩ ⟨⟨2024, 4, 3⟩, some 1, .regular⟩
    trivial ⟨Nat.le_refl 1, by norm_num [U32MAX]⟩

/-- C6: the order on Kind puts regular strictly below breaking and below
every feature, breaking strictly below every feature, and compares two
features by lexicographic order of their names; consequently, for a fixed
date and changeset, the regular version sorts below the breaking version and
feature versions sort among themselves by name. -/
theorem kind_order_spec :
    kindCmp .regular .breaking = .lt ∧
    (∀ nm, kindCmp .regular (.feature nm) = .lt) ∧
    (∀ nm, kindCmp .breaking (.feature nm) = .lt) ∧
    (∀ a b, kindCmp (.feature a) (.feature b) = .lt ↔ lexLt a b = true) ∧
    (∀ d cs, versionCmp ⟨d, cs, .regular⟩ ⟨d, cs, .breaking⟩ = .lt) ∧
    (∀ d cs a b, lexLt a b = true →
      versionCmp ⟨d, cs, .feature a⟩ ⟨d, cs, .feature b⟩ = .lt) := by
  refine ⟨rfl, fun _ => rfl, fun _ => rfl, fun a b => listCharCmp_lt_iff, ?_, ?_⟩
  · intro d cs
    unfold versionCmp
    rw [dateCmp_self, changesetCmp_self]
    rfl
  · intro d cs a b h
    unfold versionCmp
    rw [dateCmp_self, changesetCmp_self]
    have : kindCmp (.feature a) (.feature b) = .lt := listCharCmp_lt_iff.mpr h
    simp only [Ordering.then, this]

/-- Witness for C6 at two concrete feature versions ordered by name. -/
theorem kind_order_spec_witness :
    versionCmp ⟨⟨2024, 4, 3⟩, none, .feature ['f', '1']⟩
      ⟨⟨2024, 4, 3⟩, none, .feature ['f', '2']⟩ = .lt :=
  kind_order_spec.2.2.2.2.2 ⟨2024, 4, 3⟩ none ['f', '1'] ['f', '2'] (by decide)

theorem isDigit_ascii {c : Char} (h : isDigitChar c = true) : isAsciiChar c = true := by
  simp only [isDigitChar, Bool.and_eq_true, decide_eq_true_eq] at h
  simp only [isAsciiChar, decide_eq_true_eq]
  omega

theorem isDigit_ne_dot {c : Char} (h : isDigitChar c = true) : c ≠ '.' := by
  intro he
  rw [he] at h
  exact absurd h (by decide)

theorem isDigit_ne_dash {c : Char} (h : isDigitChar c = true) : c ≠ '-' := by
  intro he
  rw [he] at h
  exact absurd h (by decide)

theorem isDigit_ne_plus {c : Char} (h : isDigitChar c = true) : c ≠ '+' := by
  intro he
  rw [he] at h
  exact absurd h (by decide)

theorem digitsToNat_foldl (a : Nat) (l : List Char) :
    l.foldl (fun a c => a * 10 + (c.toNat - 48)) a =
      a * 10 ^ l.length + digitsToNat l := by
  induction l generalizing a with
  | nil => simp [digitsToNat]
  | cons c t ih =>
    simp only [List.foldl_cons, List.length_cons, digitsToNat]
    rw [ih, ih (0 * 10 + (c.toNat - 48))]
    ring

theorem digitsToNat_append (l₁ l₂ : List Char) :
    digitsToNat (l₁ ++ l₂) = digitsToNat l₁ * 10 ^ l₂.length + digitsToNat l₂ := by
  unfold digitsToNat
  rw [List.foldl_append]
  exact digitsToNat_foldl _ _

theorem digitsToNat_replicate_zero (k : Nat) :
    digitsToNat (List.replicate k '0') = 0 := by
  induction k with
  | zero => rfl
  | succ n ih =>
    rw [List.replicate_succ]
    unfold digitsToNat at ih ⊢
    rw [List.foldl_cons]
    have h0 : (0 * 10 + ('0'.toNat - 48)) = 0 := by decide
    rw [h0, ih]

theorem digitsToNat_leftPad (w : Nat) (l : List Char) :
    digitsToNat (leftPad '0' w l) = digitsToNat l := by
  unfold leftPad
  rw [digitsToNat_append, digitsToNat_replicate_zero]
  simp

theorem replicate_zero_all_digits (k : Nat) :
    (List.replicate k '0').all isDigitChar = true := by
  induction k with
  | zero => rfl
  | succ n ih =>
    rw [List.replicate_succ, List.all_cons, ih]
    decide

theorem leftPad_all_digits {w : Nat} {l : List Char} (h : l.all isDigitChar = true) :
    (leftPad '0' w l).all isDigitChar = true := by
  unfold leftPad
  rw [List.all_append, replicate_zero_all_digits, h]
  rfl

theorem leftPad_length_of_le {c : Char} {w : Nat} {l : List Char} (h : l.length ≤ w) :
    (leftPad c w l).length = w := by
  simp [leftPad]
  omega

theorem leftPad_ne_nil_of_pos {c : Char} {w : Nat} {l : List Char} (h : l ≠ []) :
    leftPad c w l ≠ [] := by
  unfold leftPad
  intro he
  rcases List.append_eq_nil.mp he with ⟨_, h2⟩
  exact h h2

theorem digitChar_isDigit (n : Nat) : isDigitChar (digitChar n) = true := by
  unfold digitChar
  split <;> decide

theorem digitChar_toNat {n : Nat} (h : n < 10) : (digitChar n).toNat = 48 + n := by
  interval_cases n <;> rfl

theorem natDigitsAux_spec : ∀ fuel n, n < fuel →
    (natDigitsAux fuel n).all isDigitChar = true ∧
    natDigitsAux fuel n ≠ [] ∧
    digitsToNat (natDigitsAux fuel n) = n := by
  intro fuel
  induction fuel with
  | zero => intro n h; omega
  | succ f ih =>
    intro n h
    rw [natDigitsAux]
    split
    · rename_i hlt
      refine ⟨?_, by simp, ?_⟩
      · rw [List.all_cons, digitChar_isDigit]
        rfl
      · show List.foldl _ 0 _ = n
        rw [List.foldl_cons, List.foldl_nil, digitChar_toNat hlt]
        omega
    · rename_i hge
      have hdiv : n / 10 < n := Nat.div_lt_self (by omega) (by omega)
      obtain ⟨ha, hn, hv⟩ := ih (n / 10) (by omega)
      refine ⟨?_, by simp, ?_⟩
      · rw [List.all_append, ha, List.all_cons, digitChar_isDigit]
        rfl
      · rw [digitsToNat_append, hv]
        show n / 10 * 10 ^ (0 + 1) + digitsToNat [digitChar (n % 10)] = n
        have hm : digitsToNat [digitChar (n % 10)] = n % 10 := by
          show List.foldl _ 0 _ = n % 10
          rw [List.foldl_cons, List.foldl_nil, digitChar_toNat (Nat.mod_lt n (by omega))]
          omega
        rw [hm]
        omega

theorem natDigits_all_digits (n : Nat) : (natDigits n).all isDigitChar = true :=
  (natDigitsAux_spec _ n (Nat.lt_succ_self n)).1

theorem natDigits_ne_nil (n : Nat) : natDigits n ≠ [] :=
  (natDigitsAux_spec _ n (Nat.lt_succ_self n)).2.1

theorem digitsToNat_natDigits (n : Nat) : digitsToNat (natDigits n) = n :=
  (natDigitsAux_spec _ n (Nat.lt_succ_self n)).2.2

theorem natDigitsAux_length : ∀ fuel n k, n < fuel → 1 ≤ k → n < 10 ^ k →
    (natDigitsAux fuel n).length ≤ k := by
  intro fuel
  induction fuel with
  | zero => intro n k h; omega
  | succ f ih =>
    intro n k h hk hn
    rw [natDigitsAux]
    split
    · simpa using hk
    · rename_i hge
      have hdiv : n / 10 < n := Nat.div_lt_self (by omega) (by omega)
      have hk2 : 2 ≤ k := by
        by_contra hc
        have : k = 1 := by omega
        subst this
        simp at hn
        omega
      have hpow : 10 ^ k = 10 ^ (k - 1) * 10 := by
        conv_lhs => rw [show k = (k - 1) + 1 by omega]
        rw [pow_succ]
      have hlt : n / 10 < 10 ^ (k - 1) := by
        rw [Nat.div_lt_iff_lt_mul (by omega)]
        omega
      have := ih (n / 10) (k - 1) (by omega) (by omega) hlt
      rw [List.length_append]
      simp only [List.length_cons, List.length_nil]
      omega

theorem natDigits_length {n k : Nat} (hk : 1 ≤ k) (h : n < 10 ^ k) :
    (natDigits n).length ≤ k :=
  natDigitsAux_length _ n k (Nat.lt_succ_self n) hk h

theorem parseUIntDigits_ok {bound : Nat} {d : List Char}
    (h1 : d ≠ []) (h2 : d.all isDigitChar = true) (h3 : digitsToNat d ≤ bound) :
    parseUIntDigits bound d = .ok (digitsToNat d) := by
  unfold parseUIntDigits
  rw [if_pos ⟨h1, h2, h3⟩]

theorem parseUIntDigits_ok_inv {bound : Nat} {d : List Char} {n : Nat}
    (h : parseUIntDigits bound d = .ok n) :
    d ≠ [] ∧ d.all isDigitChar = true ∧ digitsToNat d = n ∧ n ≤ bound := by
  unfold parseUIntDigits at h
  split at h
  · rename_i hc
    obtain ⟨hc1, hc2, hc3⟩ := hc
    injection h with h
    exact ⟨hc1, hc2, h, h ▸ hc3⟩
  · exact absurd h (by simp)

theorem exists_digit_head {l : List Char} (h1 : l ≠ []) (h2 : l.all isDigitChar = true) :
    ∃ c rest, l = c :: rest ∧ isDigitChar c = true := by
  cases l with
  | nil => exact absurd rfl h1
  | cons c rest =>
    rw [List.all_cons, Bool.and_eq_true] at h2
    exact ⟨c, rest, rfl, h2.1⟩

theorem parseUInt_of_all_digits {bound : Nat} {l : List Char}
    (h1 : l ≠ []) (h2 : l.all isDigitChar = true) (h3 : digitsToNat l ≤ bound) :
    parseUInt bound l = .ok (digitsToNat l) := by
  obtain ⟨c, rest, he, hc⟩ := exists_digit_head h1 h2
  subst he
  simp only [parseUInt, if_neg (isDigit_ne_plus hc), if_neg (isDigit_ne_dash hc)]
  exact parseUIntDigits_ok h1 h2 h3

theorem parseUInt_ok_inv {bound : Nat} {l : List Char} {n : Nat}
    (h : parseUInt bound l = .ok n) : n ≤ bound := by
  cases l with
  | nil => exact absurd h (by simp [parseUInt])
  | cons c rest =>
    simp only [parseUInt] at h
    split at h
    · exact (parseUIntDigits_ok_inv h).2.2.2
    · split at h
      · exact absurd h (by simp)
      · exact (parseUIntDigits_ok_inv h).2.2.2

theorem parseI32_of_all_digits {l : List Char}
    (h1 : l ≠ []) (h2 : l.all isDigitChar = true) (h3 : digitsToNat l ≤ 2147483647) :
    parseI32 l = .ok (digitsToNat l : Int) := by
  obtain ⟨c, rest, he, hc⟩ := exists_digit_head h1 h2
  subst he
  simp only [parseI32, if_neg (isDigit_ne_plus hc), if_neg (isDigit_ne_dash hc),
    parseUIntDigits_ok h1 h2 h3]
  rfl

theorem parseI32_neg_of_all_digits {l : List Char}
    (h1 : l ≠ []) (h2 : l.all isDigitChar = true) (h3 : digitsToNat l ≤ 2147483648) :
    parseI32 ('-' :: l) = .ok (-(digitsToNat l : Int)) := by
  simp only [parseI32, if_neg (by decide : ¬('-' : Char) = '+'), if_pos rfl,
    parseUIntDigits_ok h1 h2 h3]
  rfl

theorem formatI32Pad4_parse {y : Int} (h1 : -9999 ≤ y) (h2 : y ≤ 9999) :
    parseI32 (formatI32Pad4 y) = .ok y := by
  unfold formatI32Pad4
  split
  · rename_i hneg
    have hne : natDigits (-y).toNat ≠ [] := natDigits_ne_nil _
    have hall : (natDigits (-y).toNat).all isDigitChar = true := natDigits_all_digits _
    have hval : digitsToNat (leftPad '0' 3 (natDigits (-y).toNat)) = (-y).toNat := by
      rw [digitsToNat_leftPad, digitsToNat_natDigits]
    have hbound : digitsToNat (leftPad '0' 3 (natDigits (-y).toNat)) ≤ 2147483648 := by
      rw [hval]
      omega
    rw [parseI32_neg_of_all_digits (leftPad_ne_nil_of_pos hne) (leftPad_all_digits hall)
      hbound, hval]
    have : ((-y).toNat : Int) = -y := Int.toNat_of_nonneg (by omega)
    rw [this]
    simp
  · rename_i hpos
    have hne : natDigits y.toNat ≠ [] := natDigits_ne_nil _
    have hall : (natDigits y.toNat).all isDigitChar = true := natDigits_all_digits _
    have hval : digitsToNat (leftPad '0' 4 (natDigits y.toNat)) = y.toNat := by
      rw [digitsToNat_leftPad, digitsToNat_natDigits]
    have hbound : digitsToNat (leftPad '0' 4 (natDigits y.toNat)) ≤ 2147483647 := by
      rw [hval]
      omega
    rw [parseI32_of_all_digits (leftPad_ne_nil_of_pos hne) (leftPad_all_digits hall) hbound,
      hval]
    have : (y.toNat : Int) = y := Int.toNat_of_nonneg (by omega)
    rw [this]

theorem formatPad2_parse {bound n : Nat} (h1 : n ≤ bound) :
    parseUInt bound (formatPad2 n) = .ok n := by
  unfold formatPad2
  have hne : leftPad '0' 2 (natDigits n) ≠ [] := leftPad_ne_nil_of_pos (natDigits_ne_nil _)
  have hall : (leftPad '0' 2 (natDigits n)).all isDigitChar = true :=
    leftPad_all_digits (natDigits_all_digits _)
  have hval : digitsToNat (leftPad '0' 2 (natDigits n)) = n := by
    rw [digitsToNat_leftPad, digitsToNat_natDigits]
  have hb : digitsToNat (leftPad '0' 2 (natDigits n)) ≤ bound := by rw [hval]; exact h1
  rw [parseUInt_of_all_digits hne hall hb, hval]

theorem splitOnce_append {sep : Char} :
    ∀ {a : List Char} (b : List Char), sep ∉ a →
      splitOnce sep (a ++ sep :: b) = some (a, b) := by
  intro a
  induction a with
  | nil => intro b _; simp [splitOnce]
  | cons c t ih =>
    intro b h
    have hc : ¬(c = sep) := fun he => h (by rw [he]; exact List.mem_cons_self _ _)
    rw [List.cons_append]
    simp only [splitOnce, if_neg hc, List.append_eq,
      ih b (fun hm => h (List.mem_cons_of_mem _ hm))]

theorem mem_leftPad_digits {c : Char} {w : Nat} {l : List Char}
    (hall : l.all isDigitChar = true) (h : c ∈ leftPad '0' w l) : isDigitChar c = true := by
  unfold leftPad at h
  rcases List.mem_append.mp h with h | h
  · rw [(List.mem_replicate.mp h).2]
    decide
  · exact List.all_eq_true.mp hall c h

theorem mem_formatI32Pad4 {c : Char} {y : Int} (h : c ∈ formatI32Pad4 y) :
    isDigitChar c = true ∨ c = '-' := by
  unfold formatI32Pad4 at h
  split at h
  · rcases List.mem_cons.mp h with h | h
    · exact Or.inr h
    · exact Or.inl (mem_leftPad_digits (natDigits_all_digits _) h)
  · exact Or.inl (mem_leftPad_digits (natDigits_all_digits _) h)

theorem mem_formatPad2 {c : Char} {n : Nat} (h : c ∈ formatPad2 n) :
    isDigitChar c = true :=
  mem_leftPad_digits (natDigits_all_digits _) h

theorem dot_not_mem_formatI32Pad4 {y : Int} : '.' ∉ formatI32Pad4 y := by
  intro h
  rcases mem_formatI32Pad4 h with h | h
  · exact absurd h (by decide)
  · exact absurd h (by decide)

theorem dot_not_mem_formatPad2 {n : Nat} : '.' ∉ formatPad2 n := by
  intro h
  exact absurd (mem_formatPad2 h) (by decide)

theorem daysInMonth_le (y : Int) (m : Nat) : daysInMonth y m ≤ 31 := by
  unfold daysInMonth
  split <;> first | (split <;> omega) | omega

theorem fromCalendarDate_self {d : Date}
    (h : -9999 ≤ d.year ∧ d.year ≤ 9999 ∧ 1 ≤ d.day ∧ d.day ≤ daysInMonth d.year d.month) :
    fromCalendarDate d.year d.month d.day = some d := by
  unfold fromCalendarDate
  rw [if_pos h]

theorem parseDate_format {d : Date} (hinv : DateInv d) : parseDate d.format = .ok d := by
  obtain ⟨hy1, hy2, hm1, hm2, hd1, hd2⟩ := hinv
  unfold Date.format parseDate
  have hs1 : splitOnce '.'
      (formatI32Pad4 d.year ++ '.' :: (formatPad2 d.month ++ '.' :: formatPad2 d.day)) =
      some (formatI32Pad4 d.year, formatPad2 d.month ++ '.' :: formatPad2 d.day) :=
    splitOnce_append _ dot_not_mem_formatI32Pad4
  have hs2 : splitOnce '.' (formatPad2 d.month ++ '.' :: formatPad2 d.day) =
      some (formatPad2 d.month, formatPad2 d.day) :=
    splitOnce_append _ dot_not_mem_formatPad2
  have hday255 : d.day ≤ 255 := by
    have := daysInMonth_le d.year d.month
    omega
  simp only [hs1, hs2, formatI32Pad4_parse hy1 hy2,
    formatPad2_parse (show d.month ≤ 255 by omega)]
  rw [if_pos (show 1 ≤ d.month ∧ d.month ≤ 12 from ⟨hm1, hm2⟩)]
  simp only [formatPad2_parse hday255, fromCalendarDate_self ⟨hy1, hy2, hd1, hd2⟩]

theorem formatI32Pad4_length {y : Int} (h1 : -999 ≤ y) (h2 : y ≤ 9999) :
    (formatI32Pad4 y).length = 4 := by
  unfold formatI32Pad4
  split
  · rename_i hneg
    have : (natDigits (-y).toNat).length ≤ 3 :=
      natDigits_length (by omega) (by show (-y).toNat < 1000; omega)
    rw [List.length_cons, leftPad_length_of_le this]
  · rename_i hpos
    have : (natDigits y.toNat).length ≤ 4 :=
      natDigits_length (by omega) (by show y.toNat < 10000; omega)
    exact leftPad_length_of_le this

theorem formatPad2_length {n : Nat} (h : n ≤ 99) : (formatPad2 n).length = 2 := by
  unfold formatPad2
  have : (natDigits n).length ≤ 2 := natDigits_length (by omega) (by omega)
  exact leftPad_length_of_le this

theorem format_length {d : Date} (hinv : DateInv d) (hy : -999 ≤ d.year) :
    d.format.length = 10 := by
  obtain ⟨hy1, hy2, hm1, hm2, hd1, hd2⟩ := hinv
  have hdm : d.day ≤ 99 := by
    have : daysInMonth d.year d.month ≤ 31 := by
      unfold daysInMonth
      split <;> first | omega | (split <;> omega)
    omega
  unfold Date.format
  rw [List.length_append, List.length_cons, List.length_append, List.length_cons,
    formatI32Pad4_length hy hy2, formatPad2_length (by omega), formatPad2_length hdm]

theorem takeWhile_append_of_all {p : Char → Bool} {l : List Char} (r : List Char)
    (h : l.all p = true) : (l ++ r).takeWhile p = l ++ r.takeWhile p := by
  induction l with
  | nil => simp
  | cons c t ih =>
    rw [List.all_cons, Bool.and_eq_true] at h
    rw [List.cons_append, List.takeWhile_cons_of_pos h.1, ih h.2, List.cons_append]

theorem dropWhile_append_of_all {p : Char → Bool} {l : List Char} (r : List Char)
    (h : l.all p = true) : (l ++ r).dropWhile p = r.dropWhile p := by
  induction l with
  | nil => simp
  | cons c t ih =>
    rw [List.all_cons, Bool.and_eq_true] at h
    rw [List.cons_append, List.dropWhile_cons_of_pos h.1, ih h.2]

theorem parseDate_ok_inv {l : List Char} {d : Date} (h : parseDate l = .ok d) :
    DateInv d := by
  unfold parseDate at h
  split at h
  · exact absurd h (by simp)
  split at h
  · exact absurd h (by simp)
  split at h
  · exact absurd h (by simp)
  split at h
  · exact absurd h (by simp)
  split at h
  · rename_i hm
    split at h
    · exact absurd h (by simp)
    · split at h
      · exact absurd h (by simp)
      · rename_i hcal
        injection h with h
        subst h
        unfold fromCalendarDate at hcal
        split at hcal
        · rename_i hcond
          injection hcal with hcal
          subst hcal
          exact ⟨hcond.1, hcond.2.1, hm.1, hm.2, hcond.2.2.1, hcond.2.2.2⟩
        · exact absurd hcal (by simp)
  · exact absurd h (by simp)

theorem parseChangeset_ok_inv {l : List Char} {n : Nat}
    (h : parseChangeset l = .ok n) : 1 ≤ n ∧ n ≤ U32MAX := by
  unfold parseChangeset at h
  split at h
  · exact absurd h (by simp)
  · rename_i m hm
    split at h
    · exact absurd h (by simp)
    · rename_i hz
      injection h with h
      subst h
      exact ⟨by omega, parseUInt_ok_inv hm⟩

theorem parseChangeset_natDigits {n : Nat} (h1 : 1 ≤ n) (h2 : n ≤ U32MAX) :
    parseChangeset (natDigits n) = .ok n := by
  unfold parseChangeset
  have hu : parseUInt U32MAX (natDigits n) = .ok n := by
    have hval : digitsToNat (natDigits n) = n := digitsToNat_natDigits n
    rw [parseUInt_of_all_digits (natDigits_ne_nil n) (natDigits_all_digits n)
      (by rw [hval]; exact h2), hval]
  rw [hu]
  simp only [if_neg (show ¬n = 0 by omega)]

theorem parseKind_ok_inv {l : List Char} {k : Kind} (h : parseKind l = .ok k) :
    KindInv k := by
  unfold parseKind at h
  split at h
  · injection h with h; subst h; trivial
  split at h
  · injection h with h; subst h; trivial
  split at h
  · rename_i h1 h2 h3
    injection h with h
    subst h
    exact ⟨h3, h1, h2⟩
  · exact absurd h (by simp)

theorem parseKindStep_ok_inv {rem : List Char} {k : Kind}
    (h : parseKindStep rem = .ok k) : KindInv k := by
  unfold parseKindStep at h
  split at h
  · split at h
    · exact absurd h (by simp)
    · rename_i hk
      injection h with h
      subst h
      exact parseKind_ok_inv hk
  · injection h with h; subst h; trivial
  · exact absurd h (by simp)

theorem parseVersionTail_ok_inv {rem : List Char} {cs : Option Nat} {k : Kind}
    (h : parseVersionTail rem = .ok (cs, k)) : ChangesetInv cs ∧ KindInv k := by
  unfold parseVersionTail at h
  split at h
  · split at h
    · exact absurd h (by simp)
    · rename_i hcs
      split at h
      · exact absurd h (by simp)
      · rename_i hks
        injection h with h
        injection h with h1 h2
        subst h1
        subst h2
        exact ⟨parseChangeset_ok_inv hcs, parseKindStep_ok_inv hks⟩
  · split at h
    · exact absurd h (by simp)
    · rename_i hks
      injection h with h
      injection h with h1 h2
      subst h1
      subst h2
      exact ⟨trivial, parseKindStep_ok_inv hks⟩

theorem parseVersion_ok_inv {l : List Char} {v : Version}
    (h : parseVersion l = .ok v) : VersionInv v := by
  unfold parseVersion at h
  split at h
  · exact absurd h (by simp)
  split at h
  · exact absurd h (by simp)
  split at h
  · exact absurd h (by simp)
  · rename_i cs k htail
    split at h
    · exact absurd h (by simp)
    · rename_i d hdate
      injection h with h
      subst h
      exact ⟨parseDate_ok_inv hdate, parseVersionTail_ok_inv htail⟩

theorem parseKind_feature {nm : List Char} (ha : nm.all isAsciiChar = true)
    (hne : nm ≠ []) (hnb : nm ≠ ['b', 'r', 'e', 'a', 'k']) :
    parseKind nm = .ok (.feature nm) := by
  unfold parseKind
  rw [if_neg hne, if_neg hnb, if_pos ha]

theorem parseKindStep_format {k : Kind} (hk : KindInv k) :
    parseKindStep (formatKindPart k) = .ok k := by
  cases k with
  | regular => rfl
  | breaking => rfl
  | feature nm =>
    obtain ⟨ha, hne, hnb⟩ := hk
    show parseKindStep ('-' :: nm) = .ok (.feature nm)
    have e2 : parseKindStep ('-' :: nm) =
        (match parseKind nm with
         | .error e => .error (.invalidKind e)
         | .ok k => .ok k) := rfl
    rw [e2, parseKind_feature ha hne hnb]

theorem formatKindPart_takeWhile (k : Kind) :
    (formatKindPart k).takeWhile isDigitChar = [] := by
  cases k <;> rfl

theorem formatKindPart_dropWhile (k : Kind) :
    (formatKindPart k).dropWhile isDigitChar = formatKindPart k := by
  cases k <;> rfl

theorem parseVersionTail_format {cs : Option Nat} {k : Kind}
    (hcs : ChangesetInv cs) (hk : KindInv k) :
    parseVersionTail (formatChangesetPart cs ++ formatKindPart k) = .ok (cs, k) := by
  cases cs with
  | none =>
    rw [show formatChangesetPart none = [] from rfl, List.nil_append]
    cases k with
    | regular => rfl
    | breaking => rfl
    | feature nm =>
      obtain ⟨ha, hne, hnb⟩ := hk
      show parseVersionTail ('-' :: nm) = .ok (none, .feature nm)
      have e1 : parseVersionTail ('-' :: nm) =
          (match parseKindStep ('-' :: nm) with
           | .error e => .error e
           | .ok k => .ok (none, k)) := rfl
      have e2 : parseKindStep ('-' :: nm) =
          (match parseKind nm with
           | .error e => .error (.invalidKind e)
           | .ok k => .ok k) := rfl
      rw [e1, e2, parseKind_feature ha hne hnb]
  | some n =>
    obtain ⟨hn1, hn2⟩ := hcs
    rw [show formatChangesetPart (some n) = '.' :: natDigits n from rfl, List.cons_append]
    have e1 : parseVersionTail ('.' :: (natDigits n ++ formatKindPart k)) =
        (match parseChangeset ((natDigits n ++ formatKindPart k).takeWhile isDigitChar) with
         | .error e => .error (.invalidChangeset e)
         | .ok m =>
           match parseKindStep ((natDigits n ++ formatKindPart k).dropWhile isDigitChar) with
           | .error e => .error e
           | .ok k => .ok (some m, k)) := rfl
    have htw : (natDigits n ++ formatKindPart k).takeWhile isDigitChar = natDigits n := by
      rw [takeWhile_append_of_all _ (natDigits_all_digits n), formatKindPart_takeWhile,
        List.append_nil]
    have hdw : (natDigits n ++ formatKindPart k).dropWhile isDigitChar = formatKindPart k := by
      rw [dropWhile_append_of_all _ (natDigits_all_digits n), formatKindPart_dropWhile]
    rw [e1, htw, hdw, parseChangeset_natDigits hn1 hn2, parseKindStep_format hk]

theorem format_all_ascii {d : Date} : d.format.all isAsciiChar = true := by
  rw [List.all_eq_true]
  intro c hc
  unfold Date.format at hc
  rcases List.mem_append.mp hc with h | h
  · rcases mem_formatI32Pad4 h with h | h
    · exact isDigit_ascii h
    · rw [h]; decide
  · rcases List.mem_cons.mp h with h | h
    · rw [h]; decide
    · rcases List.mem_append.mp h with h | h
      · exact isDigit_ascii (mem_formatPad2 h)
      · rcases List.mem_cons.mp h with h | h
        · rw [h]; decide
        · exact isDigit_ascii (mem_formatPad2 h)

theorem all_digits_ascii {l : List Char} (h : l.all isDigitChar = true) :
    l.all isAsciiChar = true := by
  rw [List.all_eq_true] at h ⊢
  exact fun c hc => isDigit_ascii (h c hc)

theorem formatChangesetPart_all_ascii (cs : Option Nat) :
    (formatChangesetPart cs).all isAsciiChar = true := by
  cases cs with
  | none => rfl
  | some n =>
    rw [show formatChangesetPart (some n) = '.' :: natDigits n from rfl, List.all_cons,
      all_digits_ascii (natDigits_all_digits n)]
    rfl

theorem formatKindPart_all_ascii {k : Kind} (hk : KindInv k) :
    (formatKindPart k).all isAsciiChar = true := by
  cases k with
  | regular => rfl
  | breaking => rfl
  | feature nm =>
    rw [show formatKindPart (.feature nm) = '-' :: nm from rfl, List.all_cons, hk.1]
    rfl

/-- C1 (amended): for every Version produced by parsing whose year is at
least -999, so that the formatted year occupies exactly four characters,
re-parsing the formatted text yields the identical value. -/
theorem parse_format_roundtrip (s : List Char) (v : Version)
    (h : parseVersion s = .ok v) (hy : -999 ≤ v.date.year) :
    parseVersion (formatVersion v) = .ok v := by
  obtain ⟨hd, hcs, hk⟩ := parseVersion_ok_inv h
  unfold formatVersion parseVersion
  have hascii : ((v.date.format ++
      (formatChangesetPart v.changeset ++ formatKindPart v.kind)).all isAsciiChar) = true := by
    rw [List.all_append, format_all_ascii, List.all_append,
      formatChangesetPart_all_ascii, formatKindPart_all_ascii hk]
    rfl
  rw [hascii]
  rw [if_neg (by simp)]
  have hflen : v.date.format.length = 10 := format_length hd hy
  have hlen : ¬((v.date.format ++
      (formatChangesetPart v.changeset ++ formatKindPart v.kind)).length < 10) := by
    rw [List.length_append, hflen]
    omega
  rw [if_neg hlen]
  simp only [List.drop_left' hflen, List.take_left' hflen,
    parseVersionTail_format hcs hk, parseDate_format hd]

/-- Counterexample to C1 as stated: the input -1999.1.06 parses to the
version of January 6 of year -1999, but its formatted text -1999.01.06 has
eleven characters, so re-parsing splits the date substring wrongly and fails
with a trailing data error. -/
theorem parse_format_roundtrip_cex :
    parseVersion ("-1999.1.06".data) = .ok ⟨⟨-1999, 1, 6⟩, none, .regular⟩ ∧
    parseVersion (formatVersion ⟨⟨-1999, 1, 6⟩, none, .regular⟩) = .error .trailingData := by
  exact ⟨rfl, rfl⟩

/-- Witness for C1 at a concrete parsed version with changeset and feature
kind. -/
theorem parse_format_roundtrip_witness :
    parseVersion ("2019.01.06.12-test".data) =
      .ok ⟨⟨2019, 1, 6⟩, some 12, .feature ['t', 'e', 's', 't']⟩ ∧
    parseVersion (formatVersion ⟨⟨2019, 1, 6⟩, some 12, .feature ['t', 'e', 's', 't']⟩) =
      .ok ⟨⟨2019, 1, 6⟩, some 12, .feature ['t', 'e', 's', 't']⟩ :=
  ⟨rfl, parse_format_roundtrip ("2019.01.06.12-test".data) _ rfl (by decide)⟩

/-- C3: increment returns a version dated today with regular kind; the
changeset is absent when today differs from the receiver's date, is 1 when
the dates agree and the receiver has no changeset, and otherwise is the old
changeset plus one, saturating at the maximum representable changeset
instead of wrapping. The receiver is a pure value and is not mutated. -/
theorem increment_spec (v : Version) (today : Date) :
    v.increment today =
      ⟨today,
       if v.date = today then
         some (match v.changeset with
           | none => 1
           | some cs => min (cs + 1) U32MAX)
       else none,
       .regular⟩ := by
  have hadd : ∀ cs : Nat, (changesetCheckedAdd cs 1).getD U32MAX = min (cs + 1) U32MAX := by
    intro cs
    unfold changesetCheckedAdd
    split
    · rename_i hle
      rw [Option.getD_some]
      omega
    · rename_i hgt
      rw [Option.getD_none]
      omega
  by_cases h : v.date = today
  · simp only [Version.increment, if_pos h]
    cases v.changeset with
    | none => rfl
    | some cs =>
      show Version.mk today (some ((changesetCheckedAdd cs 1).getD U32MAX)) .regular =
        Version.mk today (some (min (cs + 1) U32MAX)) .regular
      rw [hadd cs]
  · simp only [Version.increment, if_neg h]

theorem all_of_all_drop {p : Char → Bool} {l : List Char} (n : Nat)
    (h : l.all p = true) : (l.drop n).all p = true := by
  rw [List.all_eq_true] at h ⊢
  exact fun c hc => h c (List.drop_subset n l hc)

theorem all_of_all_dropWhile {p q : Char → Bool} {l : List Char}
    (h : l.all p = true) : (l.dropWhile q).all p = true := by
  rw [List.all_eq_true] at h ⊢
  exact fun c hc => h c ((List.dropWhile_sublist q).subset hc)

/-- C8: any input containing a non-ASCII character fails with the non-ASCII
error, and this check precedes every other check, so no other error is ever
returned for such an input. -/
theorem nonascii_first (s : List Char) (c : Char) (hc : c ∈ s)
    (h : isAsciiChar c = false) : parseVersion s = .error .nonAscii := by
  have hall : s.all isAsciiChar = false := by
    cases ha : s.all isAsciiChar with
    | false => rfl
    | true =>
      rw [List.all_eq_true.mp ha c hc] at h
      exact absurd h (by simp)
  unfold parseVersion
  rw [hall, if_pos rfl]

/-- Witness for C8: a one-character non-ASCII input, which would otherwise
fail the length check, is reported as non-ASCII. -/
theorem nonascii_first_witness : parseVersion ("é".data) = .error .nonAscii :=
  nonascii_first _ 'é' (by decide) (by decide)

theorem parseKind_no_error_of_ascii {l : List Char} {e : ParseKindError}
    (hascii : l.all isAsciiChar = true) : parseKind l ≠ .error e := by
  intro h
  unfold parseKind at h
  by_cases h1 : l = []
  · rw [if_pos h1] at h
    exact absurd h (by simp)
  · rw [if_neg h1] at h
    by_cases h2 : l = ['b', 'r', 'e', 'a', 'k']
    · rw [if_pos h2] at h
      exact absurd h (by simp)
    · rw [if_neg h2, if_pos hascii] at h
      exact absurd h (by simp)

theorem parseKindStep_no_invalid_kind {rem : List Char} {e : ParseKindError}
    (hascii : rem.all isAsciiChar = true) :
    parseKindStep rem ≠ .error (.invalidKind e) := by
  intro h
  unfold parseKindStep at h
  split at h
  · rename_i rest
    split at h
    · rename_i ek hk
      have hra : rest.all isAsciiChar = true := by
        rw [List.all_cons, Bool.and_eq_true] at hascii
        exact hascii.2
      exact parseKind_no_error_of_ascii hra hk
    · exact absurd h (by simp)
  · exact absurd h (by simp)
  · exact absurd h (by simp)

theorem parseVersionTail_no_invalid_kind {rem : List Char} {e : ParseKindError}
    (hascii : rem.all isAsciiChar = true) :
    parseVersionTail rem ≠ .error (.invalidKind e) := by
  intro h
  unfold parseVersionTail at h
  split at h
  · rename_i rest
    split at h
    · rename_i he
      exact absurd h (by simp)
    · split at h
      · rename_i hks
        injection h with h
        subst h
        have hra : (rest.dropWhile isDigitChar).all isAsciiChar = true := by
          rw [List.all_cons, Bool.and_eq_true] at hascii
          exact all_of_all_dropWhile hascii.2
        exact parseKindStep_no_invalid_kind hra hks
      · exact absurd h (by simp)
  · split at h
    · rename_i hks
      injection h with h
      subst h
      exact parseKindStep_no_invalid_kind hascii hks
    · exact absurd h (by simp)

/-- C9: Version parsing never returns the invalid kind error: the up-front
ASCII check makes the non-ASCII branch of Kind parsing unreachable through
the Version parser. -/
theorem version_no_invalid_kind (s : List Char) (e : ParseKindError) :
    parseVersion s ≠ .error (.invalidKind e) := by
  intro h
  unfold parseVersion at h
  split at h
  · exact absurd h (by simp)
  split at h
  · exact absurd h (by simp)
  rename_i hba _
  have hascii : s.all isAsciiChar = true := by
    cases ha : s.all isAsciiChar with
    | false => exact absurd ha hba
    | true => rfl
  split at h
  · rename_i he
    injection h with h
    subst h
    exact parseVersionTail_no_invalid_kind (all_of_all_drop 10 hascii) he
  · split at h
    · exact absurd h (by simp)
    · exact absurd h (by simp)

/-- Witness for C9 at a concrete input, applying the theorem. -/
theorem version_no_invalid_kind_witness :
    parseVersion ("2019.01.06-test".data) ≠ .error (.invalidKind .nonAscii) :=
  version_no_invalid_kind ("2019.01.06-test".data) .nonAscii

/-- C4 (amended): when the first ten characters of an ASCII input of length
at least ten fail to parse as a date, the invalid date error wrapping the
Date error is returned provided the remainder passes the changeset and kind
steps; the date substring is parsed last, so an error of the remainder takes
precedence instead. -/
theorem date_error_last (s : List Char) :
    (∀ e cs k, s.all isAsciiChar = true → 10 ≤ s.length →
      parseVersionTail (s.drop 10) = .ok (cs, k) → parseDate (s.take 10) = .error e →
      parseVersion s = .error (.invalidDate e)) ∧
    (∀ e, s.all isAsciiChar = true → 10 ≤ s.length →
      parseVersionTail (s.drop 10) = .error e → parseVersion s = .error e) := by
  constructor
  · intro e cs k hascii hlen htail hdate
    unfold parseVersion
    rw [hascii, if_neg (by simp), if_neg (by omega)]
    simp only [htail, hdate]
  · intro e hascii hlen htail
    unfold parseVersion
    rw [hascii, if_neg (by simp), if_neg (by omega)]
    simp only [htail]

/-- Counterexample to C4 as stated: the first ten characters 0123456789 fail
date parsing, yet the input 0123456789.0 is rejected with the changeset
error, because the remainder is examined before the date substring. -/
theorem date_error_last_cex :
    parseDate ("0123456789".data) = .error .missingMonthSeparator ∧
    parseVersion ("0123456789.0".data) = .error (.invalidChangeset .zero) :=
  ⟨rfl, rfl⟩

/-- Witness for C4 at a concrete input whose remainder is empty. -/
theorem date_error_last_witness :
    parseVersion ("0123456789".data) = .error (.invalidDate .missingMonthSeparator) :=
  (date_error_last ("0123456789".data)).1 .missingMonthSeparator none .regular rfl
    (by decide) rfl rfl

theorem stripPlus_of_ne_plus {c : Char} {rest : List Char} (h : c ≠ '+') :
    stripPlus (c :: rest) = c :: rest := by
  unfold stripPlus
  split
  · rename_i heq
    injection heq with h1 h2
    exact absurd h1 h
  · rfl

theorem parseUInt_stripPlus (bound : Nat) (l : List Char) :
    parseUInt bound l = parseUIntDigits bound (stripPlus l) := by
  cases l with
  | nil => rfl
  | cons c rest =>
    by_cases hp : c = '+'
    · subst hp
      rfl
    · rw [stripPlus_of_ne_plus hp]
      simp only [parseUInt, if_neg hp]
      by_cases hm : c = '-'
      · subst hm
        rw [if_pos rfl]
        have hall : (('-' :: rest).all isDigitChar) = false := by
          rw [List.all_cons, show isDigitChar '-' = false from rfl]
          rfl
        unfold parseUIntDigits
        rw [if_neg (fun hc => by rw [hall] at hc; exact absurd hc.2.1 (by simp))]
      · rw [if_neg hm]

theorem parseUIntDigits_bad {bound : Nat} {d : List Char}
    (h : ∃ c ∈ d, isDigitChar c = false) : parseUIntDigits bound d = .error () := by
  unfold parseUIntDigits
  rw [if_neg]
  rintro ⟨_, hall, _⟩
  obtain ⟨c, hc, hcd⟩ := h
  rw [List.all_eq_true.mp hall c hc] at hcd
  exact absurd hcd (by simp)

theorem parseUInt_bad {bound : Nat} {l : List Char}
    (h : ∃ c ∈ l, isDigitChar c = false ∧ c ≠ '+') :
    parseUInt bound l = .error () := by
  obtain ⟨c0, hc0, hcd, hcp⟩ := h
  rw [parseUInt_stripPlus]
  apply parseUIntDigits_bad
  cases l with
  | nil => exact absurd hc0 (List.not_mem_nil c0)
  | cons a rest =>
    by_cases hap : a = '+'
    · subst hap
      refine ⟨c0, ?_, hcd⟩
      rcases List.mem_cons.mp hc0 with h | h
      · exact absurd h hcp
      · exact h
    · rw [stripPlus_of_ne_plus hap]
      exact ⟨c0, hc0, hcd⟩

theorem parseI32_bad {l : List Char}
    (h : ∃ c ∈ l, isDigitChar c = false ∧ c ≠ '-' ∧ c ≠ '+') :
    parseI32 l = .error () := by
  obtain ⟨c0, hc0, hcd, hcm, hcp⟩ := h
  cases l with
  | nil => exact absurd hc0 (List.not_mem_nil c0)
  | cons a rest =>
    simp only [parseI32]
    have hrest : c0 ∈ rest → parseUIntDigits 2147483647 rest = Except.error () :=
      fun hm => parseUIntDigits_bad ⟨c0, hm, hcd⟩
    by_cases hap : a = '+'
    · rw [if_pos hap]
      have hm : c0 ∈ rest := by
        rcases List.mem_cons.mp hc0 with h | h
        · exact absurd (h.trans hap) hcp
        · exact h
      rw [hrest hm]
    · rw [if_neg hap]
      by_cases ham : a = '-'
      · rw [if_pos ham]
        have hm : c0 ∈ rest := by
          rcases List.mem_cons.mp hc0 with h | h
          · exact absurd (h.trans ham) hcm
          · exact h
        rw [parseUIntDigits_bad ⟨c0, hm, hcd⟩]
      · rw [if_neg ham, parseUIntDigits_bad ⟨c0, hc0, hcd⟩]

/-- C7 (amended): a date group containing a character that is neither an
ASCII digit nor a permissible leading sign causes the malformed integer
error; the permissible signs are plus and minus for the year group, which
Rust parses as i32, and plus for the month and day groups, which Rust parses
as u8, so signed input is not always rejected and negative years can be
produced. -/
theorem date_group_malformed :
    (∀ ys ms ds : List Char, '.' ∉ ys → '.' ∉ ms →
      (∃ c ∈ ys, isDigitChar c = false ∧ c ≠ '-' ∧ c ≠ '+') →
      parseDate (ys ++ '.' :: (ms ++ '.' :: ds)) = .error .invalidInt) ∧
    (∀ ys ms ds : List Char, ∀ y : Int, '.' ∉ ys → '.' ∉ ms → parseI32 ys = .ok y →
      (∃ c ∈ ms, isDigitChar c = false ∧ c ≠ '+') →
      parseDate (ys ++ '.' :: (ms ++ '.' :: ds)) = .error .invalidInt) ∧
    (∀ ys ms ds : List Char, ∀ y : Int, ∀ m : Nat, '.' ∉ ys → '.' ∉ ms →
      parseI32 ys = .ok y → parseUInt 255 ms = .ok m → 1 ≤ m → m ≤ 12 →
      (∃ c ∈ ds, isDigitChar c = false ∧ c ≠ '+') →
      parseDate (ys ++ '.' :: (ms ++ '.' :: ds)) = .error .invalidInt) := by
  refine ⟨?_, ?_, ?_⟩
  · intro ys ms ds hys hms hbad
    unfold parseDate
    simp only [splitOnce_append _ hys, splitOnce_append _ hms, parseI32_bad hbad]
  · intro ys ms ds y hys hms hy hbad
    unfold parseDate
    simp only [splitOnce_append _ hys, splitOnce_append _ hms, hy, parseUInt_bad hbad]
  · intro ys ms ds y m hys hms hy hm hm1 hm2 hbad
    unfold parseDate
    simp only [splitOnce_append _ hys, splitOnce_append _ hms, hy, hm]
    rw [if_pos (show 1 ≤ m ∧ m ≤ 12 from ⟨hm1, hm2⟩)]
    rw [parseUInt_bad hbad]

/-- Counterexample to C7 as stated: a year group with a minus sign parses
successfully to a negative year, and a month group with a leading plus sign
parses successfully, so a sign character in a group does not imply failure. -/
theorem date_group_malformed_cex :
    parseDate ("-19.1.6".data) = .ok ⟨-19, 1, 6⟩ ∧
    parseDate ("2020.+1.6".data) = .ok ⟨2020, 1, 6⟩ :=
  ⟨rfl, rfl⟩

/-- Witness for C7 at a concrete input with a letter in the year group. -/
theorem date_group_malformed_witness :
    parseDate (['a'] ++ '.' :: (['1'] ++ '.' :: ['6'])) = .error .invalidInt :=
  date_group_malformed.1 ['a'] ['1'] ['6'] (by decide) (by decide)
    ⟨'a', by decide, by decide⟩

/-- C5 (amended): Changeset parsing succeeds exactly on base-10 digit
sequences, optionally preceded by a single plus sign, which Rust unsigned
integer parsing permits, whose value is positive and fits in 32 bits; a
minus sign or any other non-digit is rejected as a malformed integer, and a
digit sequence of value 0, including 0, 00 and +0, fails with the zero
changeset error rather than being normalized to absence. -/
theorem changeset_parse_character (l : List Char) :
    (∀ n, parseChangeset l = .ok n ↔
      (stripPlus l ≠ [] ∧ (stripPlus l).all isDigitChar = true ∧
        digitsToNat (stripPlus l) ≤ U32MAX ∧ digitsToNat (stripPlus l) = n ∧ 1 ≤ n)) ∧
    (parseChangeset l = .error .zero ↔
      (stripPlus l ≠ [] ∧ (stripPlus l).all isDigitChar = true ∧
        digitsToNat (stripPlus l) = 0)) := by
  rcases hd : parseUIntDigits U32MAX (stripPlus l) with e | m
  · have hval : parseChangeset l = .error .invalidInt := by
      unfold parseChangeset
      rw [parseUInt_stripPlus, hd]
    have hnot : ¬(stripPlus l ≠ [] ∧ (stripPlus l).all isDigitChar = true ∧
        digitsToNat (stripPlus l) ≤ U32MAX) := by
      rintro ⟨h1, h2, h3⟩
      rw [parseUIntDigits_ok h1 h2 h3] at hd
      exact absurd hd (by simp)
    constructor
    · intro n
      rw [hval]
      exact iff_of_false (by simp) (by rintro ⟨h1, h2, h3, _, _⟩; exact hnot ⟨h1, h2, h3⟩)
    · rw [hval]
      exact iff_of_false (by simp) (by rintro ⟨h1, h2, h3⟩; exact hnot ⟨h1, h2, by omega⟩)
  · obtain ⟨h1, h2, h3, h4⟩ := parseUIntDigits_ok_inv hd
    by_cases hz : m = 0
    · subst hz
      have hval : parseChangeset l = .error .zero := by
        unfold parseChangeset
        rw [parseUInt_stripPlus, hd]
        rfl
      constructor
      · intro n
        rw [hval]
        refine iff_of_false (by simp) ?_
        intro hcon
        obtain ⟨_, _, _, hv, hn⟩ := hcon
        omega
      · rw [hval]
        exact iff_of_true rfl ⟨h1, h2, h3⟩
    · have hval : parseChangeset l = .ok m := by
        unfold parseChangeset
        rw [parseUInt_stripPlus, hd]
        show (if m = 0 then Except.error ParseChangesetError.zero else Except.ok m) =
          Except.ok m
        rw [if_neg hz]
      constructor
      · intro n
        rw [hval]
        constructor
        · intro h
          injection h with h
          subst h
          exact ⟨h1, h2, by omega, h3, by omega⟩
        · rintro ⟨_, _, _, hv, _⟩
          rw [show m = n by omega]
      · rw [hval]
        exact iff_of_false (by simp) (by rintro ⟨_, _, hv⟩; exact hz (by omega))

/-- Counterexample to C5 as stated: a leading plus sign is accepted by the
Rust u32 parser, so the changeset +5 parses successfully to 5; moreover a
pure digit sequence denoting a positive integer beyond the u32 range is
rejected, so success is not exactly on digit sequences denoting positive
integers. -/
theorem changeset_parse_character_cex :
    parseChangeset ("+5".data) = .ok 5 ∧
    parseChangeset ("4294967296".data) = .error .invalidInt :=
  ⟨rfl, rfl⟩

/-- C10: the representable maximum of a changeset is exactly 2 to the 32
minus 1: parsed changesets lie between 1 and that maximum, digit sequences
beyond it fail as malformed integers, and the saturating increment clamps at
exactly that maximum. -/
theorem changeset_bounds :
    U32MAX = 2 ^ 32 - 1 ∧
    (∀ (l : List Char) (n : Nat), parseChangeset l = .ok n → 1 ≤ n ∧ n ≤ 2 ^ 32 - 1) ∧
    (∀ l : List Char, l ≠ [] → l.all isDigitChar = true → 2 ^ 32 - 1 < digitsToNat l →
      parseChangeset l = .error .invalidInt) ∧
    (∀ (v : Version) (today : Date) (cs : Nat), v.changeset = some cs → v.date = today →
      2 ^ 32 - 1 ≤ cs → (v.increment today).changeset = some (2 ^ 32 - 1)) ∧
    (∀ (v : Version) (today : Date) (cs : Nat), v.changeset = some cs → v.date = today →
      cs + 1 ≤ 2 ^ 32 - 1 → (v.increment today).changeset = some (cs + 1)) := by
  have hmax : U32MAX = 2 ^ 32 - 1 := by norm_num [U32MAX]
  refine ⟨hmax, ?_, ?_, ?_, ?_⟩
  · intro l n h
    have := parseChangeset_ok_inv h
    omega
  · intro l hne hall hbig
    unfold parseChangeset
    obtain ⟨c, rest, he, hc⟩ := exists_digit_head hne hall
    subst he
    rw [parseUInt_stripPlus, stripPlus_of_ne_plus (isDigit_ne_plus hc)]
    unfold parseUIntDigits
    rw [if_neg (fun hcond => by omega)]
  · intro v today cs hcs hdate hbig
    simp only [Version.increment, if_pos hdate, hcs]
    have : changesetCheckedAdd cs 1 = none := by
      unfold changesetCheckedAdd
      rw [if_neg (by omega)]
    rw [this, Option.getD_none, hmax]
  · intro v today cs hcs hdate hsmall
    simp only [Version.increment, if_pos hdate, hcs]
    have : changesetCheckedAdd cs 1 = some (cs + 1) := by
      unfold changesetCheckedAdd
      rw [if_pos (by omega)]
    rw [this, Option.getD_some]

/-- Witness for C10: the overflowing digit sequence 4294967296 is rejected,
and incrementing a version whose changeset is already at the maximum on the
same date stays at the maximum. -/
theorem changeset_bounds_witness :
    parseChangeset ("4294967296".data) = .error .invalidInt ∧
    (Version.increment ⟨⟨2024, 4, 3⟩, some 4294967295, .regular⟩ ⟨2024, 4, 3⟩).changeset =
      some (2 ^ 32 - 1) :=
  ⟨changeset_bounds.2.2.1 ("4294967296".data) (by decide) (by decide) (by decide),
   changeset_bounds.2.2.2.1 ⟨⟨2024, 4, 3⟩, some 4294967295, .regular⟩ ⟨2024, 4, 3⟩
     4294967295 rfl rfl (by norm_num)⟩

end Chronver
